import Mathlib

/-!
Verification of `auto-fetch-fifo-ttl-cache` (TypeScript, `AutoFetchFIFOCache`).

The orchestrator class `AutoFetchFIFOCache` composes two components:
a bounded FIFO store with per-entry TTL (the `fifo-ttl-cache` dependency)
and a keyed promise lock (the `zero-overhead-keyed-promise-lock`
dependency).  The orchestrator source is embedded directly; the two
dependencies are not part of this repository's sources, so their
behaviour is modelled from the specification's component contracts
(sections 4.1 and 4.2 of the design document).

Time is modelled as a natural-number timestamp in milliseconds, passed
explicitly to every read and write.  JavaScript promise scheduling is
modelled by splitting `getOrFetch` into its synchronous phases: `arrive`
(everything up to the first suspension point) and `settle` (the
continuation that runs when the fetch for a key settles).  This follows
the cooperative single-threaded model of section 5: all store and lock
mutations are synchronous between suspension points.
-/

namespace AutoFetch

/-- Model of JavaScript runtime values sufficient to express the
truthiness test `if (value)` that `getOrFetch` performs on the value
returned by the store.  `vNaN` is kept as its own constructor. -/
inductive JSValue where
  | vNull
  | vUndefined
  | vNaN
  | vBool (b : Bool)
  | vNum (n : Int)
  | vStr (s : String)
deriving DecidableEq

/-- JavaScript ToBoolean on modelled values: `null`, `undefined`, `NaN`,
`false`, `0` and the empty string are falsy, everything else truthy. -/
def jsTruthy : JSValue → Bool
  | .vNull => false
  | .vUndefined => false
  | .vNaN => false
  | .vBool b => b
  | .vNum n => n != 0
  | .vStr s => s != ""

/-- Outcome of a settled fetch promise: resolved with a value, or
rejected with an error (errors are identified by a numeric id). -/
inductive FetchOutcome (V : Type) where
  | ok (v : V)
  | err (e : Nat)
deriving DecidableEq

/-- Store entry.  Modelled from the spec: `{ key, value, insertedAt }`,
immutable once created (replacing a key deletes and reinserts). -/
structure Entry (V : Type) where
  key : String
  value : V
  insertedAt : Nat
deriving DecidableEq

/-- Modelled from the spec: state of the bounded ordered store of the
`fifo-ttl-cache` dependency (not part of this repository's sources).
`entries` is kept oldest-first; `capacity` and `ttlMs` are fixed at
construction. -/
structure FIFOCache (V : Type) where
  capacity : Nat
  ttlMs : Nat
  entries : List (Entry V)
deriving DecidableEq

namespace FIFOCache

variable {V : Type}

/-- Lookup of the raw entry for a key, ignoring expiry. -/
def findEntry (c : FIFOCache V) (key : String) : Option (Entry V) :=
  c.entries.find? (fun e => e.key == key)

/-- Modelled from the spec: `get` returns the value if present and not
older than `ttl` (a read at time `now < insertedAt + ttlMs` is fresh,
a read at `now ≥ insertedAt + ttlMs` behaves as absent); it does not
implicitly delete. -/
def get (c : FIFOCache V) (key : String) (now : Nat) : Option V :=
  match c.findEntry key with
  | some e => if now < e.insertedAt + c.ttlMs then some e.value else none
  | none => none

/-- Modelled from the spec: `has` is the same presence check as `get`
without returning the value. -/
def has (c : FIFOCache V) (key : String) (now : Nat) : Bool :=
  (c.get key now).isSome

/-- Modelled from the spec: `size` reflects the raw entry count,
including logically-expired-but-not-yet-removed entries. -/
def size (c : FIFOCache V) : Nat :=
  c.entries.length

/-- Modelled from the spec: `isEmpty` holds when no entry is stored. -/
def isEmpty (c : FIFOCache V) : Bool :=
  c.entries.isEmpty

/-- Removes every entry stored under `key` (there is at most one). -/
def removeKey (c : FIFOCache V) (key : String) : FIFOCache V :=
  { c with entries := c.entries.filter (fun e => e.key != key) }

/-- Modelled from the spec: `set` inserts or replaces.  Replacing a key
deletes and reinserts (entries are immutable).  If the key is new and
`size == capacity`, the single oldest entry by insertion order is
evicted before inserting. -/
def set (c : FIFOCache V) (key : String) (v : V) (now : Nat) : FIFOCache V :=
  if (c.findEntry key).isSome then
    let c1 := c.removeKey key
    { c1 with entries := c1.entries ++ [⟨key, v, now⟩] }
  else if c.size == c.capacity then
    { c with entries := c.entries.tail ++ [⟨key, v, now⟩] }
  else
    { c with entries := c.entries ++ [⟨key, v, now⟩] }

/-- Modelled from the spec: `delete` removes the entry if the key
exists, regardless of expiry, and reports whether a removal occurred. -/
def delete (c : FIFOCache V) (key : String) : FIFOCache V × Bool :=
  if (c.findEntry key).isSome then (c.removeKey key, true) else (c, false)

/-- Modelled from the spec: `clear` removes all entries. -/
def clear (c : FIFOCache V) : FIFOCache V :=
  { c with entries := [] }

/-- The insertion-ordered list of keys currently stored. -/
def cacheKeys (c : FIFOCache V) : List String :=
  c.entries.map Entry.key

end FIFOCache

/-- Lock active set: the key-indexed set of in-flight fetches, each
identified by a fetch id.  Modelled from the spec: at most one in-flight
task per key. -/
def eraseKey (active : List (String × Nat)) (key : String) : List (String × Nat) :=
  active.filter (fun p => p.1 != key)

/-- Modelled from the spec: `getCurrentExecution` returns the in-flight
future for the key if one exists, without starting a new one. -/
def lockGetCurrentExecution (active : List (String × Nat)) (key : String) : Option Nat :=
  (active.find? (fun p => p.1 == key)).map Prod.snd

/-- Whole-system state of one `AutoFetchFIFOCache` instance: the FIFO
store, the keyed lock's active set, a fresh-id counter for fetches, the
log of `fetchValue` invocations `(fetch id, key)`, and the log of store
writes `(key, time)` performed by `getOrFetch`. -/
structure Sys (V : Type) where
  cache : FIFOCache V
  active : List (String × Nat)
  nextFid : Nat
  invocations : List (Nat × String)
  writeLog : List (String × Nat)
deriving DecidableEq

/-- A fresh system around an empty store. -/
def initSys (V : Type) (capacity ttlMs : Nat) : Sys V :=
  ⟨⟨capacity, ttlMs, []⟩, [], 0, [], []⟩

/-- How one `getOrFetch` call classifies after its synchronous phase:
an immediate cache hit, a join of an in-flight fetch, or the owner of a
newly registered exclusive fetch. -/
inductive CallRole (V : Type) where
  | hit (v : V)
  | joined (fid : Nat)
  | owner (fid : Nat)
deriving DecidableEq

/-- The hit test of `getOrFetch`, embedded from the source lines
`let value = this._fifoCache.get(key); if (value) { return value; }`:
the retrieved value is returned only when it is truthy. -/
def hitValue (truthy : V → Bool) (c : FIFOCache V) (key : String) (now : Nat) :
    Option V :=
  match c.get key now with
  | some v => if truthy v then some v else none
  | none => none

/-- Synchronous phase of `getOrFetch(key)`, embedded from the source:
on a truthy cache hit return the value; otherwise join the in-flight
fetch if the lock holds one; otherwise register a new exclusive
execution, which invokes `fetchValue(key)` exactly once (logged in
`invocations`). -/
def arrive (truthy : V → Bool) (s : Sys V) (key : String) (now : Nat) :
    Sys V × CallRole V :=
  match hitValue truthy s.cache key now with
  | some v => (s, .hit v)
  | none =>
    match lockGetCurrentExecution s.active key with
    | some fid => (s, .joined fid)
    | none =>
      ({ s with
          active := (key, s.nextFid) :: s.active,
          nextFid := s.nextFid + 1,
          invocations := s.invocations ++ [(s.nextFid, key)] },
        .owner s.nextFid)

/-- Continuation that runs when the fetch for `key` settles with outcome
`o` at time `now`: the lock removes the key from the active set
unconditionally; on success the owning `getOrFetch` call performs the
single store write `set(key, value)` (logged in `writeLog`); on failure
no store write occurs. -/
def settle (s : Sys V) (key : String) (o : FetchOutcome V) (now : Nat) : Sys V :=
  let s1 := { s with active := eraseKey s.active key }
  match o with
  | .ok v =>
      { s1 with
          cache := s1.cache.set key v now,
          writeLog := s1.writeLog ++ [(key, now)] }
  | .err _ => s1

/-- The settled result of one `getOrFetch` call: a hit resolves with the
cached value immediately; an owner or joiner resolves or rejects with
the outcome of the shared fetch. -/
def callResult (role : CallRole V) (o : FetchOutcome V) : FetchOutcome V :=
  match role with
  | .hit v => .ok v
  | .joined _ => o
  | .owner _ => o

/-- Number of `fetchValue` invocations recorded for a key. -/
def fetchCount (s : Sys V) (key : String) : Nat :=
  (s.invocations.filter (fun p => p.2 == key)).length

/-- Runs the synchronous phases of several `getOrFetch(key)` calls, in
order, before the fetch for `key` settles; returns the final state and
the role each call took. -/
def arriveMany (truthy : V → Bool) (s : Sys V) (key : String) :
    List Nat → Sys V × List (CallRole V)
  | [] => (s, [])
  | t :: ts =>
    let p := arrive truthy s key t
    let q := arriveMany truthy p.1 key ts
    (q.1, p.2 :: q.2)

/-- One public store operation, used to state frame properties: which
operations can change the store and which cannot. -/
inductive StoreOp (V : Type) where
  | getOp (key : String) (t : Nat)
  | hasOp (key : String) (t : Nat)
  | setOp (key : String) (v : V) (t : Nat)
  | deleteOp (key : String)
  | clearOp
deriving DecidableEq

/-- State transformation of one public store operation.  Modelled from
the spec: reads (`get`/`has`) behave as absent on expired entries but do
not implicitly delete, so they leave the store unchanged. -/
def applyStoreOp (c : FIFOCache V) : StoreOp V → FIFOCache V
  | .getOp _ _ => c
  | .hasOp _ _ => c
  | .setOp key v t => c.set key v t
  | .deleteOp key => (c.delete key).1
  | .clearOp => c.clear

/-- Whether a store operation is a read. -/
def StoreOp.isRead : StoreOp V → Bool
  | .getOp _ _ => true
  | .hasOp _ _ => true
  | _ => false

/-- One orchestrator-level operation in a sequential scenario: a full
successful fetch round (a `getOrFetch` call whose fetch, when the call
registers one, resolves with `v` at `tSettle`), or a plain `getOrFetch`
call observed only for its state effect (a read). -/
inductive Op (V : Type) where
  | fetchRound (key : String) (v : V) (tArrive tSettle : Nat)
  | readCall (key : String) (t : Nat)
deriving DecidableEq

/-- Executes one operation.  A `fetchRound` settles its fetch only when
the arriving call actually registered one (a hit or a join performs no
settlement of its own). -/
def step (truthy : V → Bool) (s : Sys V) : Op V → Sys V
  | .fetchRound key v _tA tS =>
      let p := arrive truthy s key _tA
      match p.2 with
      | .owner _ => settle p.1 key (.ok v) tS
      | _ => p.1
  | .readCall key t => (arrive truthy s key t).1

/-- Executes a list of operations in order. -/
def runOps (truthy : V → Bool) (s : Sys V) (ops : List (Op V)) : Sys V :=
  ops.foldl (step truthy) s

/-- Checks that every `readCall` in the list observes a truthy cache hit
in the state it runs in. -/
def readsHitB (truthy : V → Bool) : Sys V → List (Op V) → Bool
  | _, [] => true
  | s, op :: rest =>
    (match op with
     | .readCall key t => (hitValue truthy s.cache key t).isSome
     | .fetchRound _ _ _ _ => true) && readsHitB truthy (step truthy s op) rest

/-- The `(key, value, settle time)` triples of the fetch rounds of an
operation list, in order. -/
def roundsOf : List (Op V) → List (String × V × Nat)
  | [] => []
  | .fetchRound key v _ tS :: rest => (key, v, tS) :: roundsOf rest
  | .readCall _ _ :: rest => roundsOf rest

/-- Keys of the fetch rounds of an operation list, in order. -/
def roundKeys (ops : List (Op V)) : List String :=
  (roundsOf ops).map (fun r => r.1)

/-- Folds `set` over a list of `(key, value, time)` triples. -/
def insertRounds (c : FIFOCache V) : List (String × V × Nat) → FIFOCache V
  | [] => c
  | (key, v, t) :: rest => insertRounds (c.set key v t) rest

/-- Modelled from the spec: the snapshot that
`waitForAllExistingTasksToComplete` captures at call time — the ids of
the fetches in flight at that moment. -/
def drainSnapshot (s : Sys V) : List Nat :=
  s.active.map Prod.snd

/-- Modelled from the spec: given the settlement events `(fetch id,
outcome)` that have occurred since the drain call, the drain promise is
resolved exactly when every fetch of the snapshot has settled; the
outcomes themselves are not inspected. -/
def drainResolved (snapshot : List Nat) (trace : List (Nat × FetchOutcome V)) :
    Bool :=
  snapshot.all (fun f => trace.any (fun ev => ev.1 == f))

/-- Concrete scenario used to instantiate the FIFO-eviction property:
capacity 2, three successful fetch rounds for the distinct keys `a`,
`b`, `c` with reads of already-cached keys interleaved. -/
def opsC5 : List (Op JSValue) :=
  [.fetchRound "a" (.vNum 1) 0 1,
   .readCall "a" 2,
   .fetchRound "b" (.vNum 2) 3 4,
   .readCall "a" 5,
   .readCall "b" 6,
   .fetchRound "c" (.vNum 3) 7 8]

section StoreLemmas

variable {V : Type}

theorem FIFOCache.findEntry_eq_none_iff {c : FIFOCache V} {k : String} :
    c.findEntry k = none ↔ k ∉ c.cacheKeys := by
  unfold FIFOCache.findEntry FIFOCache.cacheKeys
  rw [List.find?_eq_none]
  constructor
  · intro h hk
    obtain ⟨e, he, hek⟩ := List.mem_map.mp hk
    have hfe := h e he
    simp [hek] at hfe
  · intro h e he
    by_contra hb
    simp only [Bool.not_eq_false, beq_iff_eq] at hb
    exact h (List.mem_map.mpr ⟨e, he, hb⟩)

theorem FIFOCache.get_eq_none_of_findEntry {c : FIFOCache V} {k : String}
    (h : c.findEntry k = none) (t : Nat) : c.get k t = none := by
  unfold FIFOCache.get
  rw [h]

theorem FIFOCache.has_eq_false_of_findEntry {c : FIFOCache V} {k : String}
    (h : c.findEntry k = none) (t : Nat) : c.has k t = false := by
  unfold FIFOCache.has
  rw [FIFOCache.get_eq_none_of_findEntry h]
  rfl

theorem FIFOCache.get_of_findEntry {c : FIFOCache V} {k : String} {e : Entry V}
    (h : c.findEntry k = some e) (t : Nat) :
    c.get k t = if t < e.insertedAt + c.ttlMs then some e.value else none := by
  unfold FIFOCache.get
  rw [h]

theorem FIFOCache.capacity_set (c : FIFOCache V) (k : String) (v : V) (t : Nat) :
    (c.set k v t).capacity = c.capacity := by
  unfold FIFOCache.set
  split
  · rfl
  · split <;> rfl

theorem FIFOCache.ttlMs_set (c : FIFOCache V) (k : String) (v : V) (t : Nat) :
    (c.set k v t).ttlMs = c.ttlMs := by
  unfold FIFOCache.set
  split
  · rfl
  · split <;> rfl

theorem FIFOCache.entries_set_of_findEntry_none {c : FIFOCache V} {k : String}
    (h : c.findEntry k = none) (v : V) (t : Nat) :
    (c.set k v t).entries =
      (if c.entries.length = c.capacity then c.entries.tail else c.entries)
        ++ [⟨k, v, t⟩] := by
  unfold FIFOCache.set
  rw [h]
  simp only [Option.isSome_none, Bool.false_eq_true, if_false, FIFOCache.size,
    beq_iff_eq]
  by_cases hc : c.entries.length = c.capacity <;> simp [hc]

theorem FIFOCache.findEntry_set_self (c : FIFOCache V) (k : String) (v : V)
    (t : Nat) : (c.set k v t).findEntry k = some ⟨k, v, t⟩ := by
  have hsingle : List.find? (fun e => e.key == k) [(⟨k, v, t⟩ : Entry V)] =
      some ⟨k, v, t⟩ := by
    simp [List.find?]
  by_cases h : (c.findEntry k).isSome
  · unfold FIFOCache.set
    rw [if_pos h]
    unfold FIFOCache.findEntry FIFOCache.removeKey
    simp only [List.find?_append]
    have hnone : List.find? (fun e => e.key == k)
        (c.entries.filter (fun e => e.key != k)) = none := by
      rw [List.find?_eq_none]
      intro e he
      have := (List.mem_filter.mp he).2
      simpa using this
    rw [hnone, hsingle]
    rfl
  · have hn : c.findEntry k = none := by
      cases hfe : c.findEntry k
      · rfl
      · rw [hfe] at h; simp at h
    have hnone : ∀ e ∈ c.entries, ¬(e.key == k) = true :=
      List.find?_eq_none.mp hn
    unfold FIFOCache.set
    rw [hn]
    simp only [Option.isSome_none, Bool.false_eq_true, if_false]
    unfold FIFOCache.findEntry
    split
    · simp only [List.find?_append]
      have htail : List.find? (fun e => e.key == k) c.entries.tail = none := by
        rw [List.find?_eq_none]
        intro e he
        exact hnone e (List.mem_of_mem_tail he)
      rw [htail, hsingle]
      rfl
    · simp only [List.find?_append]
      have hall : List.find? (fun e => e.key == k) c.entries = none :=
        List.find?_eq_none.mpr hnone
      rw [hall, hsingle]
      rfl

theorem FIFOCache.get_set_self (c : FIFOCache V) (k : String) (v : V)
    (t u : Nat) :
    (c.set k v t).get k u = if u < t + c.ttlMs then some v else none := by
  rw [FIFOCache.get_of_findEntry (FIFOCache.findEntry_set_self c k v t) u,
    FIFOCache.ttlMs_set]

theorem FIFOCache.mem_cacheKeys_set {c : FIFOCache V} {k1 k : String} {v : V}
    {t : Nat} (h : k1 ∈ (c.set k v t).cacheKeys) :
    k1 = k ∨ k1 ∈ c.cacheKeys := by
  unfold FIFOCache.set FIFOCache.removeKey at h
  unfold FIFOCache.cacheKeys at h ⊢
  split at h
  · simp only [List.map_append, List.mem_append, List.map_cons, List.map_nil,
      List.mem_singleton] at h
    rcases h with h | h
    · obtain ⟨e, he, hek⟩ := List.mem_map.mp h
      exact Or.inr (List.mem_map.mpr ⟨e, (List.mem_filter.mp he).1, hek⟩)
    · exact Or.inl h
  · split at h <;>
    · simp only [List.map_append, List.mem_append, List.map_cons, List.map_nil,
        List.mem_singleton] at h
      rcases h with h | h
      · obtain ⟨e, he, hek⟩ := List.mem_map.mp h
        first
        | exact Or.inr (List.mem_map.mpr ⟨e, List.mem_of_mem_tail he, hek⟩)
        | exact Or.inr (List.mem_map.mpr ⟨e, he, hek⟩)
      · exact Or.inl h

end StoreLemmas

section OrchestratorLemmas

variable {V : Type}

theorem hitValue_eq_none_of_get {truthy : V → Bool} {c : FIFOCache V}
    {key : String} {now : Nat} (h : c.get key now = none) :
    hitValue truthy c key now = none := by
  unfold hitValue
  rw [h]

theorem hitValue_eq_none_of_falsy {truthy : V → Bool} {c : FIFOCache V}
    {key : String} {now : Nat} {v : V} (h : c.get key now = some v)
    (hf : truthy v = false) : hitValue truthy c key now = none := by
  unfold hitValue
  rw [h]
  simp [hf]

theorem hitValue_eq_some_of_truthy {truthy : V → Bool} {c : FIFOCache V}
    {key : String} {now : Nat} {v : V} (h : c.get key now = some v)
    (ht : truthy v = true) : hitValue truthy c key now = some v := by
  unfold hitValue
  rw [h]
  simp [ht]

theorem arrive_of_hit {truthy : V → Bool} {s : Sys V} {key : String}
    {now : Nat} {v : V} (h : hitValue truthy s.cache key now = some v) :
    arrive truthy s key now = (s, .hit v) := by
  unfold arrive
  rw [h]

theorem arrive_of_joined {truthy : V → Bool} {s : Sys V} {key : String}
    {now : Nat} {fid : Nat} (h1 : hitValue truthy s.cache key now = none)
    (h2 : lockGetCurrentExecution s.active key = some fid) :
    arrive truthy s key now = (s, .joined fid) := by
  unfold arrive
  rw [h1, h2]

theorem arrive_of_owner {truthy : V → Bool} {s : Sys V} {key : String}
    {now : Nat} (h1 : hitValue truthy s.cache key now = none)
    (h2 : lockGetCurrentExecution s.active key = none) :
    arrive truthy s key now =
      ({ s with
          active := (key, s.nextFid) :: s.active,
          nextFid := s.nextFid + 1,
          invocations := s.invocations ++ [(s.nextFid, key)] },
        .owner s.nextFid) := by
  unfold arrive
  rw [h1, h2]

theorem lockGet_cons_self (active : List (String × Nat)) (key : String)
    (fid : Nat) :
    lockGetCurrentExecution ((key, fid) :: active) key = some fid := by
  unfold lockGetCurrentExecution
  simp [List.find?]

theorem lockGet_eraseKey (active : List (String × Nat)) (key : String) :
    lockGetCurrentExecution (eraseKey active key) key = none := by
  unfold lockGetCurrentExecution eraseKey
  have hq : List.find? (fun p => p.1 == key)
      (active.filter (fun p => p.1 != key)) = none := by
    rw [List.find?_eq_none]
    intro p hp
    have := (List.mem_filter.mp hp).2
    simpa using this
  rw [hq]
  rfl

theorem eraseKey_cons_self (active : List (String × Nat)) (key : String)
    (fid : Nat) (h : eraseKey active key = active) :
    eraseKey ((key, fid) :: active) key = active := by
  unfold eraseKey at h ⊢
  simp [h]

theorem eraseKey_of_lockGet_none {active : List (String × Nat)} {key : String}
    (h : lockGetCurrentExecution active key = none) :
    eraseKey active key = active := by
  unfold lockGetCurrentExecution at h
  unfold eraseKey
  have hfind : List.find? (fun p => p.1 == key) active = none := by
    cases hf : List.find? (fun p => p.1 == key) active
    · rfl
    · rw [hf] at h
      simp at h
  rw [List.filter_eq_self]
  intro p hp
  have := List.find?_eq_none.mp hfind p hp
  simpa using this

theorem settle_ok_eq (s : Sys V) (key : String) (v : V) (now : Nat) :
    settle s key (.ok v) now =
      { s with
          active := eraseKey s.active key,
          cache := s.cache.set key v now,
          writeLog := s.writeLog ++ [(key, now)] } := rfl

theorem settle_err_eq (s : Sys V) (key : String) (e : Nat) (now : Nat) :
    settle s key (.err e) now = { s with active := eraseKey s.active key } := rfl

theorem fetchCount_append (inv : List (Nat × String)) (fid : Nat)
    (key : String) :
    ((inv ++ [(fid, key)]).filter (fun p => p.2 == key)).length =
      (inv.filter (fun p => p.2 == key)).length + 1 := by
  simp [List.filter_append]

theorem arriveMany_all_joined {truthy : V → Bool} {s : Sys V} {key : String}
    {fid : Nat} {ts : List Nat}
    (h1 : ∀ t ∈ ts, hitValue truthy s.cache key t = none)
    (h2 : lockGetCurrentExecution s.active key = some fid) :
    arriveMany truthy s key ts = (s, ts.map fun _ => .joined fid) := by
  induction ts with
  | nil => rfl
  | cons t ts ih =>
    unfold arriveMany
    rw [arrive_of_joined (h1 t (by simp)) h2]
    dsimp only
    rw [ih (fun u hu => h1 u (by simp [hu]))]
    rfl

end OrchestratorLemmas

section FifoRunLemmas

variable {V : Type}

theorem FIFOCache.findEntry_of_mem {c : FIFOCache V} {k : String}
    (h : k ∈ c.cacheKeys) : ∃ e, c.findEntry k = some e ∧ e.key = k := by
  cases hf : c.findEntry k with
  | none => exact absurd h (FIFOCache.findEntry_eq_none_iff.mp hf)
  | some e =>
    refine ⟨e, rfl, ?_⟩
    have := List.find?_some hf
    simpa using this

theorem FIFOCache.capacity_insertRounds (c : FIFOCache V)
    (rs : List (String × V × Nat)) :
    (insertRounds c rs).capacity = c.capacity := by
  induction rs generalizing c with
  | nil => rfl
  | cons r rs ih =>
    obtain ⟨k, v, t⟩ := r
    rw [insertRounds, ih, FIFOCache.capacity_set]

theorem FIFOCache.ttlMs_insertRounds (c : FIFOCache V)
    (rs : List (String × V × Nat)) :
    (insertRounds c rs).ttlMs = c.ttlMs := by
  induction rs generalizing c with
  | nil => rfl
  | cons r rs ih =>
    obtain ⟨k, v, t⟩ := r
    rw [insertRounds, ih, FIFOCache.ttlMs_set]

theorem FIFOCache.entries_insertRounds {c : FIFOCache V}
    {rs : List (String × V × Nat)} (hcap : 1 ≤ c.capacity)
    (hlen : c.entries.length ≤ c.capacity)
    (hfresh : ∀ r ∈ rs, r.1 ∉ c.cacheKeys)
    (hnodup : (rs.map fun r => r.1).Nodup) :
    (insertRounds c rs).entries =
      (c.entries ++ rs.map fun r => (⟨r.1, r.2.1, r.2.2⟩ : Entry V)).drop
        (c.entries.length + rs.length - c.capacity) := by
  induction rs generalizing c with
  | nil =>
    simp [insertRounds, Nat.sub_eq_zero_of_le hlen]
  | cons r rs ih =>
    obtain ⟨k, v, t⟩ := r
    have hkc : k ∉ c.cacheKeys := hfresh (k, v, t) (by simp)
    have hfe : c.findEntry k = none := FIFOCache.findEntry_eq_none_iff.mpr hkc
    have hset := FIFOCache.entries_set_of_findEntry_none hfe v t
    have hcap1 : (c.set k v t).capacity = c.capacity :=
      FIFOCache.capacity_set c k v t
    have hfresh1 : ∀ r ∈ rs, r.1 ∉ (c.set k v t).cacheKeys := by
      intro r hr hmem
      rcases FIFOCache.mem_cacheKeys_set hmem with h | h
      · have hk : k ∉ rs.map fun r => r.1 := by
          have := hnodup
          simp only [List.map_cons, List.nodup_cons] at this
          exact this.1
        exact hk (List.mem_map.mpr ⟨r, hr, h⟩)
      · exact hfresh r (by simp [hr]) h
    have hnodup1 : (rs.map fun r => r.1).Nodup := by
      have := hnodup
      simp only [List.map_cons, List.nodup_cons] at this
      exact this.2
    rw [insertRounds]
    by_cases hfull : c.entries.length = c.capacity
    · have hlen1 : (c.set k v t).entries.length ≤ (c.set k v t).capacity := by
        rw [hset, hcap1, if_pos hfull]
        simp only [List.length_append, List.length_tail, List.length_cons,
          List.length_nil]
        omega
      have hmain := ih (c := c.set k v t) (by rw [hcap1]; exact hcap) hlen1
        hfresh1 hnodup1
      rw [hmain, hset, hcap1, if_pos hfull]
      have hlents : (c.entries.tail ++ [(⟨k, v, t⟩ : Entry V)]).length =
          c.capacity := by
        simp only [List.length_append, List.length_tail, List.length_cons,
          List.length_nil]
        omega
      rw [hlents]
      have hdropamt : c.capacity + rs.length - c.capacity = rs.length := by
        omega
      have hgoalamt : c.entries.length + (rs.length + 1) - c.capacity =
          rs.length + 1 := by
        omega
      rw [hdropamt]
      simp only [List.length_cons, hgoalamt]
      have htail : c.entries.tail = c.entries.drop 1 := (List.drop_one _).symm
      rw [htail, List.append_assoc]
      rw [← List.drop_append_of_le_length (by omega)]
      rw [List.drop_drop]
      simp [List.map_cons, Nat.add_comm]
    · have hlt : c.entries.length < c.capacity := by
        omega
      have hlen1 : (c.set k v t).entries.length ≤ (c.set k v t).capacity := by
        rw [hset, hcap1, if_neg hfull]
        simp only [List.length_append, List.length_cons, List.length_nil]
        omega
      have hmain := ih (c := c.set k v t) (by rw [hcap1]; exact hcap) hlen1
        hfresh1 hnodup1
      rw [hmain, hset, hcap1, if_neg hfull]
      simp only [List.length_append, List.length_cons, List.length_nil,
        List.map_cons, List.append_assoc, List.singleton_append]
      have hamt : c.entries.length + 1 + rs.length - c.capacity =
          c.entries.length + (rs.length + 1) - c.capacity := by
        omega
      rw [hamt]

theorem runOps_cons (truthy : V → Bool) (s : Sys V) (op : Op V)
    (ops : List (Op V)) :
    runOps truthy s (op :: ops) = runOps truthy (step truthy s op) ops := rfl

theorem lockGet_nil (key : String) :
    lockGetCurrentExecution ([] : List (String × Nat)) key = none := rfl

theorem eraseKey_singleton (key : String) (fid : Nat) :
    eraseKey [(key, fid)] key = [] := by
  simp [eraseKey]

theorem runOps_spec {V : Type} (truthy : V → Bool) :
    ∀ (ops : List (Op V)) (s : Sys V),
      s.active = [] →
      readsHitB truthy s ops = true →
      (roundKeys ops).Nodup →
      (∀ k ∈ roundKeys ops, k ∉ s.cache.cacheKeys) →
      (runOps truthy s ops).cache = insertRounds s.cache (roundsOf ops)
        ∧ (runOps truthy s ops).active = [] := by
  intro ops
  induction ops with
  | nil =>
    intro s hact _ _ _
    exact ⟨rfl, hact⟩
  | cons op rest ih =>
    intro s hact hreads hnodup hfresh
    cases op with
    | readCall key t =>
      rw [readsHitB] at hreads
      have hsplit := (Bool.and_eq_true _ _).mp hreads
      have hhit : (hitValue truthy s.cache key t).isSome = true := hsplit.1
      obtain ⟨v, hv⟩ : ∃ v, hitValue truthy s.cache key t = some v := by
        cases hcase : hitValue truthy s.cache key t
        · rw [hcase] at hhit
          simp at hhit
        · exact ⟨_, rfl⟩
      have hstep : step truthy s (.readCall key t) = s := by
        show (arrive truthy s key t).1 = s
        rw [arrive_of_hit hv]
      rw [runOps_cons]
      rw [hstep] at hsplit ⊢
      have hrk : roundKeys ((Op.readCall key t : Op V) :: rest) =
          roundKeys rest := rfl
      rw [hrk] at hnodup hfresh
      have := ih s hact hsplit.2 hnodup hfresh
      exact this
    | fetchRound key v tA tS =>
      rw [readsHitB] at hreads
      have hsplit := (Bool.and_eq_true _ _).mp hreads
      have hrk : roundKeys ((Op.fetchRound key v tA tS : Op V) :: rest) =
          key :: roundKeys rest := rfl
      rw [hrk] at hnodup hfresh
      have hkc : key ∉ s.cache.cacheKeys := hfresh key (by simp)
      have hfe : s.cache.findEntry key = none :=
        FIFOCache.findEntry_eq_none_iff.mpr hkc
      have hhit : hitValue truthy s.cache key tA = none :=
        hitValue_eq_none_of_get (FIFOCache.get_eq_none_of_findEntry hfe tA)
      have hlock : lockGetCurrentExecution s.active key = none := by
        rw [hact]
        exact lockGet_nil key
      have harr := arrive_of_owner hhit hlock
      have hstep : step truthy s (.fetchRound key v tA tS) =
          { s with
              active := [],
              nextFid := s.nextFid + 1,
              invocations := s.invocations ++ [(s.nextFid, key)],
              cache := s.cache.set key v tS,
              writeLog := s.writeLog ++ [(key, tS)] } := by
        simp only [step]
        rw [harr]
        dsimp only
        rw [settle_ok_eq]
        have her : eraseKey ((key, s.nextFid) :: s.active) key = [] := by
          rw [hact]
          exact eraseKey_singleton key s.nextFid
        simp only [her]
      have hfresh1 : ∀ k ∈ roundKeys rest,
          k ∉ (s.cache.set key v tS).cacheKeys := by
        intro k hk hmem
        rcases FIFOCache.mem_cacheKeys_set hmem with h | h
        · have : key ∉ roundKeys rest := (List.nodup_cons.mp hnodup).1
          rw [h] at hk
          exact this hk
        · exact hfresh k (by simp [hk]) h
      rw [runOps_cons, hstep]
      have := ih _ rfl (hstep ▸ hsplit.2) (List.nodup_cons.mp hnodup).2 hfresh1
      refine ⟨?_, this.2⟩
      rw [this.1]
      rfl

theorem entries_insertRounds_empty {V : Type} (Cp L : Nat) (hcap : 1 ≤ Cp)
    (rs : List (String × V × Nat)) (hnodup : (rs.map fun r => r.1).Nodup) :
    (insertRounds (⟨Cp, L, []⟩ : FIFOCache V) rs).entries =
      (rs.map fun r => (⟨r.1, r.2.1, r.2.2⟩ : Entry V)).drop (rs.length - Cp) := by
  have h := FIFOCache.entries_insertRounds (c := (⟨Cp, L, []⟩ : FIFOCache V))
    hcap (by simp) (by intro r hr; simp [FIFOCache.cacheKeys]) hnodup
  simpa using h

theorem arriveMany_owner_spec {V : Type} {truthy : V → Bool} {s : Sys V}
    {key : String} {t : Nat} {ts : List Nat}
    (hmiss : ∀ u ∈ t :: ts, s.cache.get key u = none)
    (hnolock : lockGetCurrentExecution s.active key = none) :
    arriveMany truthy s key (t :: ts) =
      ({ s with
          active := (key, s.nextFid) :: s.active,
          nextFid := s.nextFid + 1,
          invocations := s.invocations ++ [(s.nextFid, key)] },
        CallRole.owner s.nextFid :: (ts.map fun _ => CallRole.joined s.nextFid)) := by
  have hm1 : hitValue truthy s.cache key t = none :=
    hitValue_eq_none_of_get (hmiss t (by simp))
  have harr := arrive_of_owner hm1 hnolock
  unfold arriveMany
  rw [harr]
  dsimp only
  rw [@arriveMany_all_joined V truthy
    { s with
        active := (key, s.nextFid) :: s.active,
        nextFid := s.nextFid + 1,
        invocations := s.invocations ++ [(s.nextFid, key)] }
    key s.nextFid ts
    (fun u hu => hitValue_eq_none_of_get (hmiss u (by simp [hu])))
    (lockGet_cons_self s.active key s.nextFid)]

end FifoRunLemmas

section Claims

/-- C1: for a key absent from the store (missing or expired) at every
arrival time, among N ≥ 1 `getOrFetch` calls arriving while the fetch
for the key is not yet settled, the first call registers the exclusive
fetch — so `fetchValue` is invoked exactly once — and every later call
joins that same fetch; once the shared fetch settles with outcome `o`,
all N calls settle with that same outcome (all resolve to the same
value, or all reject with the same rejection). -/
theorem C1_at_most_one_fetch {V : Type} (truthy : V → Bool) (s : Sys V)
    (key : String) (t : Nat) (ts : List Nat)
    (hmiss : ∀ u ∈ t :: ts, s.cache.get key u = none)
    (hnolock : lockGetCurrentExecution s.active key = none) :
    (arriveMany truthy s key (t :: ts)).2 =
        CallRole.owner s.nextFid :: (ts.map fun _ => CallRole.joined s.nextFid)
      ∧ fetchCount (arriveMany truthy s key (t :: ts)).1 key
          = fetchCount s key + 1
      ∧ ∀ o : FetchOutcome V,
          ((arriveMany truthy s key (t :: ts)).2.map fun r => callResult r o)
            = List.replicate (t :: ts).length o := by
  have hmain := @arriveMany_owner_spec V truthy s key t ts hmiss hnolock
  refine ⟨?_, ?_, ?_⟩
  · rw [hmain]
  · rw [hmain]
    unfold fetchCount
    exact fetchCount_append s.invocations s.nextFid key
  · intro o
    rw [hmain]
    simp [callResult, List.replicate_succ]

/-- Witness instantiating C1: three concurrent calls for a missing key;
one owner, two joiners, a single fetch invocation, and a shared outcome. -/
theorem C1_at_most_one_fetch_witness :
    (arriveMany jsTruthy (initSys JSValue 3 100) "k" [0, 0, 1]).2 =
        [CallRole.owner 0, CallRole.joined 0, CallRole.joined 0]
      ∧ fetchCount (arriveMany jsTruthy (initSys JSValue 3 100) "k" [0, 0, 1]).1 "k" = 1
      ∧ ((arriveMany jsTruthy (initSys JSValue 3 100) "k" [0, 0, 1]).2.map
            fun r => callResult r (FetchOutcome.err 5))
          = List.replicate 3 (FetchOutcome.err 5) := by
  have h := C1_at_most_one_fetch jsTruthy (initSys JSValue 3 100) "k" 0 [0, 1]
    (by decide) (by decide)
  refine ⟨?_, ?_, ?_⟩
  · rw [h.1]
    rfl
  · rw [h.2.1]
    rfl
  · rw [h.2.2 (FetchOutcome.err 5)]
    rfl

/-- C3: if the fetch for a missing key resolves to a value `v` that is
falsy, the registering `getOrFetch` call resolves with `v` and stores it
in the cache via `set`, so a later read finds the value fresh in the
store; yet every subsequent `getOrFetch` for the key, even within
`ttlMs` of the insertion, treats the entry as a miss — the hit check
tests the truthiness of the retrieved value — and therefore registers a
new exclusive fetch, invoking `fetchValue` again for the key. -/
theorem C3_falsy_value_refetched {V : Type} (truthy : V → Bool) (s : Sys V)
    (key : String) (v : V) (t0 T t1 : Nat)
    (hfalsy : truthy v = false)
    (hmiss : s.cache.get key t0 = none)
    (hnolock : lockGetCurrentExecution s.active key = none)
    (hfresh : t1 < T + s.cache.ttlMs) :
    callResult (arrive truthy s key t0).2 (.ok v) = .ok v
      ∧ (settle (arrive truthy s key t0).1 key (.ok v) T).cache
          = s.cache.set key v T
      ∧ (settle (arrive truthy s key t0).1 key (.ok v) T).cache.get key t1
          = some v
      ∧ hitValue truthy
          (settle (arrive truthy s key t0).1 key (.ok v) T).cache key t1 = none
      ∧ (arrive truthy (settle (arrive truthy s key t0).1 key (.ok v) T) key t1).2
          = CallRole.owner
              (settle (arrive truthy s key t0).1 key (.ok v) T).nextFid
      ∧ fetchCount
            (arrive truthy (settle (arrive truthy s key t0).1 key (.ok v) T)
              key t1).1 key
          = fetchCount s key + 2 := by
  have hm1 : hitValue truthy s.cache key t0 = none :=
    hitValue_eq_none_of_get hmiss
  have harr := arrive_of_owner hm1 hnolock
  have her : eraseKey ((key, s.nextFid) :: s.active) key = s.active := by
    have h1 : eraseKey ((key, s.nextFid) :: s.active) key
        = eraseKey s.active key := by
      simp [eraseKey]
    rw [h1]
    exact eraseKey_of_lockGet_none hnolock
  have hs2 : settle (arrive truthy s key t0).1 key (.ok v) T =
      { s with
          cache := s.cache.set key v T,
          nextFid := s.nextFid + 1,
          invocations := s.invocations ++ [(s.nextFid, key)],
          writeLog := s.writeLog ++ [(key, T)] } := by
    rw [harr]
    dsimp only
    rw [settle_ok_eq]
    dsimp only
    rw [her]
  have hget2 : (s.cache.set key v T).get key t1 = some v := by
    rw [FIFOCache.get_set_self]
    exact if_pos hfresh
  have hhv2 : hitValue truthy (s.cache.set key v T) key t1 = none :=
    hitValue_eq_none_of_falsy hget2 hfalsy
  have harr2 := @arrive_of_owner V truthy
    { s with
        cache := s.cache.set key v T,
        nextFid := s.nextFid + 1,
        invocations := s.invocations ++ [(s.nextFid, key)],
        writeLog := s.writeLog ++ [(key, T)] }
    key t1 hhv2 hnolock
  refine ⟨?_, ?_, ?_, ?_, ?_, ?_⟩
  · rw [harr]
    rfl
  · rw [hs2]
  · rw [hs2]
    exact hget2
  · rw [hs2]
    exact hhv2
  · rw [hs2, harr2]
  · rw [hs2, harr2]
    dsimp only
    unfold fetchCount
    rw [fetchCount_append, fetchCount_append]

/-- Witness instantiating C3 with the falsy fetched value `0`: the value
is stored and fresh in the store, yet the next `getOrFetch` registers a
second fetch. -/
theorem C3_falsy_value_refetched_witness :
    callResult (arrive jsTruthy (initSys JSValue 4 100) "k" 0).2
        (.ok (JSValue.vNum 0)) = .ok (JSValue.vNum 0)
      ∧ (settle (arrive jsTruthy (initSys JSValue 4 100) "k" 0).1 "k"
            (.ok (JSValue.vNum 0)) 1).cache.get "k" 2 = some (JSValue.vNum 0)
      ∧ (arrive jsTruthy
            (settle (arrive jsTruthy (initSys JSValue 4 100) "k" 0).1 "k"
              (.ok (JSValue.vNum 0)) 1) "k" 2).2 = CallRole.owner 1
      ∧ fetchCount
            (arrive jsTruthy
              (settle (arrive jsTruthy (initSys JSValue 4 100) "k" 0).1 "k"
                (.ok (JSValue.vNum 0)) 1) "k" 2).1 "k" = 2 := by
  have h := C3_falsy_value_refetched jsTruthy (initSys JSValue 4 100) "k"
    (JSValue.vNum 0) 0 1 2 (by decide) (by decide) (by decide) (by decide)
  refine ⟨h.1, h.2.2.1, ?_, ?_⟩
  · rw [h.2.2.2.2.1]
    rfl
  · rw [h.2.2.2.2.2]
    rfl

/-- C5: starting from an empty cache with capacity `C ≥ 1`, a run whose
successful fetch rounds insert `C + 1` distinct keys `k0 :: ks` in that
order, with arbitrarily many `getOrFetch` reads of currently cached keys
interleaved, leaves exactly the keys `ks` in the store in insertion
order: `k0` is evicted as the oldest entry and is reported absent at
every read time, while every key of `ks` remains present and is reported
by `has` at any time within `ttlMs` of its insertion; the reads never
change the eviction order. -/
theorem C5_fifo_eviction {V : Type} (truthy : V → Bool) (C L : Nat)
    (hC : 1 ≤ C) (ops : List (Op V)) (k0 : String) (ks : List String)
    (hkeys : roundKeys ops = k0 :: ks)
    (hlen : ks.length = C)
    (hnodup : (k0 :: ks).Nodup)
    (hreads : readsHitB truthy (initSys V C L) ops = true) :
    (runOps truthy (initSys V C L) ops).cache.cacheKeys = ks
      ∧ (∀ t, (runOps truthy (initSys V C L) ops).cache.has k0 t = false)
      ∧ ∀ k ∈ ks, ∃ e,
          (runOps truthy (initSys V C L) ops).cache.findEntry k = some e
            ∧ e.key = k
            ∧ ∀ t, t < e.insertedAt + L →
                (runOps truthy (initSys V C L) ops).cache.has k t = true := by
  have hnodup2 : ((roundsOf ops).map fun r => r.1).Nodup := by
    have hm : (roundsOf ops).map (fun r => r.1) = k0 :: ks := hkeys
    rw [hm]
    exact hnodup
  have hspec := runOps_spec truthy ops (initSys V C L) rfl hreads
    (by rw [hkeys]; exact hnodup)
    (by intro k hk; simp [initSys, FIFOCache.cacheKeys])
  have hlrs : (roundsOf ops).length = C + 1 := by
    have h1 := congrArg List.length hkeys
    simp only [roundKeys, List.length_map, List.length_cons, hlen] at h1
    exact h1
  have hent : (runOps truthy (initSys V C L) ops).cache.entries =
      ((roundsOf ops).map fun r => (⟨r.1, r.2.1, r.2.2⟩ : Entry V)).drop 1 := by
    rw [hspec.1]
    have h := entries_insertRounds_empty C L hC (roundsOf ops) hnodup2
    rw [hlrs] at h
    have h2 : C + 1 - C = 1 := by omega
    rw [h2] at h
    exact h
  have httl : (runOps truthy (initSys V C L) ops).cache.ttlMs = L := by
    rw [hspec.1]
    exact FIFOCache.ttlMs_insertRounds _ _
  have hck : (runOps truthy (initSys V C L) ops).cache.cacheKeys = ks := by
    unfold FIFOCache.cacheKeys
    rw [hent]
    rw [← List.map_drop]
    rw [List.map_map]
    have hcomp : (Entry.key ∘ fun r : String × V × Nat =>
        (⟨r.1, r.2.1, r.2.2⟩ : Entry V)) = fun r => r.1 := rfl
    rw [hcomp]
    have hm : (roundsOf ops).map (fun r => r.1) = k0 :: ks := hkeys
    rw [List.map_drop, hm]
    rfl
  refine ⟨hck, ?_, ?_⟩
  · intro t
    have hk0 : k0 ∉ (runOps truthy (initSys V C L) ops).cache.cacheKeys := by
      rw [hck]
      exact (List.nodup_cons.mp hnodup).1
    exact FIFOCache.has_eq_false_of_findEntry
      (FIFOCache.findEntry_eq_none_iff.mpr hk0) t
  · intro k hk
    have hmem : k ∈ (runOps truthy (initSys V C L) ops).cache.cacheKeys := by
      rw [hck]
      exact hk
    obtain ⟨e, he, hek⟩ := FIFOCache.findEntry_of_mem hmem
    refine ⟨e, he, hek, ?_⟩
    intro t ht
    rw [FIFOCache.has, FIFOCache.get_of_findEntry he t, httl]
    rw [if_pos ht]
    rfl

/-- Witness instantiating C5 at capacity 2, ttl 100, keys `a`, `b`, `c`
and interleaved reads: `a` is evicted, `b` and `c` remain. -/
theorem C5_fifo_eviction_witness :
    (runOps jsTruthy (initSys JSValue 2 100) opsC5).cache.cacheKeys = ["b", "c"]
      ∧ (runOps jsTruthy (initSys JSValue 2 100) opsC5).cache.has "a" 9 = false := by
  have h := C5_fifo_eviction jsTruthy 2 100 (by decide) opsC5 "a" ["b", "c"]
    (by decide) (by decide) (by decide) (by decide)
  exact ⟨h.1, h.2.1 9⟩

/-- C2 failing input: the store holds a fresh (non-expired) entry for
`k` whose value is `0`; `get` returns it, yet `getOrFetch` does not
return the cached value immediately — it registers a new exclusive
fetch and invokes `fetchValue`, because the hit check tests the
truthiness of the retrieved value. -/
theorem C2_code_bug_eval :
    ((⟨10, 100, [⟨"k", JSValue.vNum 0, 0⟩]⟩ : FIFOCache JSValue).get "k" 5
        = some (JSValue.vNum 0))
      ∧ (arrive jsTruthy ⟨⟨10, 100, [⟨"k", JSValue.vNum 0, 0⟩]⟩, [], 0, [], []⟩
            "k" 5).2 = CallRole.owner 0
      ∧ fetchCount
            (arrive jsTruthy ⟨⟨10, 100, [⟨"k", JSValue.vNum 0, 0⟩]⟩, [], 0, [], []⟩
              "k" 5).1 "k" = 1 := by
  decide

/-- C4 failing input: the store already holds a fresh entry for `k`
whose value is `false`, and the fetch for `k` rejects.  The registering
call does reject with that error and the store is unchanged, but
`has(k)` is `true` after the rejection propagates — the pre-existing
falsy entry is still cached — so the claim's assertion that `has(k)` is
false fails. -/
theorem C4_code_bug_eval :
    (arrive jsTruthy ⟨⟨4, 100, [⟨"k", JSValue.vBool false, 0⟩]⟩, [], 0, [], []⟩
          "k" 5).2 = CallRole.owner 0
      ∧ callResult
            (arrive jsTruthy
              ⟨⟨4, 100, [⟨"k", JSValue.vBool false, 0⟩]⟩, [], 0, [], []⟩
              "k" 5).2 (FetchOutcome.err 7) = FetchOutcome.err 7
      ∧ (settle
            (arrive jsTruthy
              ⟨⟨4, 100, [⟨"k", JSValue.vBool false, 0⟩]⟩, [], 0, [], []⟩
              "k" 5).1 "k" (FetchOutcome.err 7) 6).cache
          = ⟨4, 100, [⟨"k", JSValue.vBool false, 0⟩]⟩
      ∧ (settle
            (arrive jsTruthy
              ⟨⟨4, 100, [⟨"k", JSValue.vBool false, 0⟩]⟩, [], 0, [], []⟩
              "k" 5).1 "k" (FetchOutcome.err 7) 6).cache.has "k" 6 = true := by
  decide

/-- C6 failing input: an entry for `k` with the falsy value `""` is
inserted at time 0 with `ttlMs = 100`.  At read time 5 < 0 + 100 `has`
correctly reports the entry present, but the hit check of `getOrFetch`
reports it absent, so the claim's assertion that the hit check reports
the entry present at every read time before expiry fails.  At read time
100 both report absent while `size` still counts the entry. -/
theorem C6_code_bug_eval :
    ((⟨10, 100, [⟨"k", JSValue.vStr "", 0⟩]⟩ : FIFOCache JSValue).has "k" 5
        = true)
      ∧ hitValue jsTruthy
          (⟨10, 100, [⟨"k", JSValue.vStr "", 0⟩]⟩ : FIFOCache JSValue) "k" 5
          = none
      ∧ ((⟨10, 100, [⟨"k", JSValue.vStr "", 0⟩]⟩ : FIFOCache JSValue).has "k" 100
          = false)
      ∧ hitValue jsTruthy
          (⟨10, 100, [⟨"k", JSValue.vStr "", 0⟩]⟩ : FIFOCache JSValue) "k" 100
          = none
      ∧ (⟨10, 100, [⟨"k", JSValue.vStr "", 0⟩]⟩ : FIFOCache JSValue).size
          = 1 := by
  decide

/-- C7: the drain of `waitForActiveFetchesToComplete` observes the
snapshot of fetches in flight at call time and resolves exactly when
every one of them has settled, success or failure: resolution is
equivalent to every snapshot fetch having a settlement event in the
trace; it is invariant under replacing the outcomes of the settlement
events (so it resolves even when some awaited fetches fail, and never
rejects); and settlement events of fetches not in the snapshot — those
started after the call — can be removed from the trace without changing
the resolution, so they are not awaited. -/
theorem C7_drain_correctness {V : Type} (s : Sys V)
    (trace : List (Nat × FetchOutcome V)) :
    (drainResolved (drainSnapshot s) trace = true ↔
        ∀ f ∈ drainSnapshot s, ∃ o, (f, o) ∈ trace)
      ∧ (∀ g : Nat × FetchOutcome V → FetchOutcome V,
          drainResolved (drainSnapshot s) (trace.map fun ev => (ev.1, g ev))
            = drainResolved (drainSnapshot s) trace)
      ∧ ∀ f2, f2 ∉ drainSnapshot s →
          drainResolved (drainSnapshot s) (trace.filter fun ev => ev.1 != f2)
            = drainResolved (drainSnapshot s) trace := by
  refine ⟨?_, ?_, ?_⟩
  · unfold drainResolved
    rw [List.all_eq_true]
    constructor
    · intro h f hf
      have hany := h f hf
      rw [List.any_eq_true] at hany
      obtain ⟨ev, hev, heq⟩ := hany
      have hevf : ev.1 = f := by simpa using heq
      have hpair : (f, ev.2) = ev := by
        rw [← hevf]
      exact ⟨ev.2, hpair ▸ hev⟩
    · intro h f hf
      obtain ⟨o, ho⟩ := h f hf
      rw [List.any_eq_true]
      exact ⟨(f, o), ho, by simp⟩
  · intro g
    simp only [drainResolved, List.any_map]
    rfl
  · intro f2 hf2
    have hiff :
        (drainResolved (drainSnapshot s) (trace.filter fun ev => ev.1 != f2)
            = true)
          ↔ (drainResolved (drainSnapshot s) trace = true) := by
      unfold drainResolved
      rw [List.all_eq_true, List.all_eq_true]
      constructor
      · intro h f hf
        have hany := h f hf
        rw [List.any_eq_true] at hany ⊢
        obtain ⟨ev, hev, heq⟩ := hany
        exact ⟨ev, (List.mem_filter.mp hev).1, heq⟩
      · intro h f hf
        have hany := h f hf
        rw [List.any_eq_true] at hany ⊢
        obtain ⟨ev, hev, heq⟩ := hany
        have hevf : ev.1 = f := by simpa using heq
        have hne : f ≠ f2 := fun hcon => hf2 (hcon ▸ hf)
        refine ⟨ev, List.mem_filter.mpr ⟨hev, ?_⟩, heq⟩
        simp [hevf, hne]
    cases h1 : drainResolved (drainSnapshot s) (trace.filter fun ev => ev.1 != f2) <;>
      cases h2 : drainResolved (drainSnapshot s) trace <;> simp_all

/-- Witness instantiating C7: two fetches in flight at call time; the
drain result ignores the outcomes of their settlements and ignores a
later fetch's settlement event entirely. -/
theorem C7_drain_correctness_witness :
    drainResolved
        (drainSnapshot (⟨⟨2, 100, []⟩, [("a", 0), ("b", 1)], 2, [], []⟩ : Sys JSValue))
        (([(0, FetchOutcome.ok (JSValue.vNum 1)), (1, FetchOutcome.err 2),
            (5, FetchOutcome.err 3)]).map
            fun ev => (ev.1, (FetchOutcome.err 9 : FetchOutcome JSValue)))
      = drainResolved
          (drainSnapshot (⟨⟨2, 100, []⟩, [("a", 0), ("b", 1)], 2, [], []⟩ : Sys JSValue))
          [(0, FetchOutcome.ok (JSValue.vNum 1)), (1, FetchOutcome.err 2),
            (5, FetchOutcome.err 3)]
      ∧ drainResolved
          (drainSnapshot (⟨⟨2, 100, []⟩, [("a", 0), ("b", 1)], 2, [], []⟩ : Sys JSValue))
          (([(0, FetchOutcome.ok (JSValue.vNum 1)), (1, FetchOutcome.err 2),
              (5, FetchOutcome.err 3)]).filter fun ev => ev.1 != 5)
        = drainResolved
            (drainSnapshot (⟨⟨2, 100, []⟩, [("a", 0), ("b", 1)], 2, [], []⟩ : Sys JSValue))
            [(0, FetchOutcome.ok (JSValue.vNum 1)), (1, FetchOutcome.err 2),
              (5, FetchOutcome.err 3)] := by
  have h := C7_drain_correctness
    (⟨⟨2, 100, []⟩, [("a", 0), ("b", 1)], 2, [], []⟩ : Sys JSValue)
    [(0, FetchOutcome.ok (JSValue.vNum 1)), (1, FetchOutcome.err 2),
      (5, FetchOutcome.err 3)]
  exact ⟨h.2.1 (fun ev => FetchOutcome.err 9), h.2.2 5 (by decide)⟩

/-- C8: for a wave of `getOrFetch` calls on a missing key, the arrival
phase — the registering call and every joining call — performs no store
write (cache and write log are unchanged); when the shared fetch settles
successfully, exactly one store write `set(key, value)` occurs,
performed by the registered exclusive execution, and the cache changes
only through that `set` (so entries are removed only by its capacity
policy); when the fetch fails, zero store writes occur. -/
theorem C8_single_store_write {V : Type} (truthy : V → Bool) (s : Sys V)
    (key : String) (t : Nat) (ts : List Nat) (v : V) (tS : Nat)
    (hmiss : ∀ u ∈ t :: ts, s.cache.get key u = none)
    (hnolock : lockGetCurrentExecution s.active key = none) :
    (arriveMany truthy s key (t :: ts)).1.cache = s.cache
      ∧ (arriveMany truthy s key (t :: ts)).1.writeLog = s.writeLog
      ∧ (settle (arriveMany truthy s key (t :: ts)).1 key (.ok v) tS).cache
          = s.cache.set key v tS
      ∧ (settle (arriveMany truthy s key (t :: ts)).1 key (.ok v) tS).writeLog
          = s.writeLog ++ [(key, tS)]
      ∧ ∀ e : Nat,
          (settle (arriveMany truthy s key (t :: ts)).1 key (.err e) tS).cache
              = s.cache
            ∧ (settle (arriveMany truthy s key (t :: ts)).1 key
                  (.err e) tS).writeLog
              = s.writeLog := by
  have hmain := @arriveMany_owner_spec V truthy s key t ts hmiss hnolock
  rw [hmain]
  refine ⟨rfl, rfl, ?_, ?_, ?_⟩
  · rw [settle_ok_eq]
  · rw [settle_ok_eq]
  · intro e
    rw [settle_err_eq]
    exact ⟨rfl, rfl⟩

/-- Witness instantiating C8: two calls on a missing key leave the
store and write log untouched; the successful settlement produces
exactly one write; a failed settlement produces none. -/
theorem C8_single_store_write_witness :
    (arriveMany jsTruthy (initSys JSValue 2 100) "k" [0, 1]).1.cache
        = (initSys JSValue 2 100).cache
      ∧ (settle (arriveMany jsTruthy (initSys JSValue 2 100) "k" [0, 1]).1 "k"
            (.ok (JSValue.vNum 4)) 3).writeLog = [("k", 3)]
      ∧ (settle (arriveMany jsTruthy (initSys JSValue 2 100) "k" [0, 1]).1 "k"
            (.err 9) 3).writeLog = [] := by
  have h := C8_single_store_write jsTruthy (initSys JSValue 2 100) "k" 0 [1]
    (JSValue.vNum 4) 3 (by decide) (by decide)
  refine ⟨h.1, ?_, ?_⟩
  · rw [h.2.2.2.1]
    rfl
  · rw [(h.2.2.2.2 9).2]
    rfl

/-- C9: read operations never remove entries: `get` and `has` on an
expired key behave as if the key were absent yet leave the store
unchanged — the expired entry is still stored and still counted by
`size` — and any store operation that changes `size` is never a read
(only `set`, whose capacity policy evicts, `delete`, or `clear` can). -/
theorem C9_reads_never_remove {V : Type} (c : FIFOCache V) (k : String)
    (t : Nat) (e : Entry V) (hfe : c.findEntry k = some e)
    (hexp : e.insertedAt + c.ttlMs ≤ t) :
    c.get k t = none
      ∧ c.has k t = false
      ∧ (applyStoreOp c (.getOp k t)).findEntry k = some e
      ∧ (applyStoreOp c (.hasOp k t)).size = c.size
      ∧ ∀ op : StoreOp V, (applyStoreOp c op).size ≠ c.size →
          op.isRead = false := by
  have hget : c.get k t = none := by
    rw [FIFOCache.get_of_findEntry hfe]
    rw [if_neg (by omega)]
  refine ⟨hget, ?_, ?_, rfl, ?_⟩
  · rw [FIFOCache.has, hget]
    rfl
  · exact hfe
  · intro op hop
    cases op with
    | getOp k2 t2 => exact absurd rfl hop
    | hasOp k2 t2 => exact absurd rfl hop
    | setOp k2 v2 t2 => rfl
    | deleteOp k2 => rfl
    | clearOp => rfl

/-- Witness instantiating C9 on an expired-but-present entry: reads
report it absent, yet the entry is still stored and counted. -/
theorem C9_reads_never_remove_witness :
    (⟨10, 100, [⟨"k", JSValue.vNum 7, 0⟩]⟩ : FIFOCache JSValue).get "k" 150
        = none
      ∧ (⟨10, 100, [⟨"k", JSValue.vNum 7, 0⟩]⟩ : FIFOCache JSValue).has "k" 150
        = false
      ∧ (applyStoreOp (⟨10, 100, [⟨"k", JSValue.vNum 7, 0⟩]⟩ : FIFOCache JSValue)
            (.getOp "k" 150)).findEntry "k" = some ⟨"k", JSValue.vNum 7, 0⟩
      ∧ (applyStoreOp (⟨10, 100, [⟨"k", JSValue.vNum 7, 0⟩]⟩ : FIFOCache JSValue)
            (.hasOp "k" 150)).size = 1 := by
  have h := C9_reads_never_remove
    (⟨10, 100, [⟨"k", JSValue.vNum 7, 0⟩]⟩ : FIFOCache JSValue) "k" 150
    ⟨"k", JSValue.vNum 7, 0⟩ (by decide) (by decide)
  refine ⟨h.1, h.2.1, h.2.2.1, ?_⟩
  rw [h.2.2.2.1]
  rfl

/-- C10: `delete` returns true exactly when an entry for the key exists
in the store at the time of the call, whether fresh or expired; on an
absent key it returns false and the store is unchanged.  In particular,
deleting an expired-but-present key (one `has` already reports absent)
returns true. -/
theorem C10_delete_semantics {V : Type} (c : FIFOCache V) (k : String) :
    ((c.delete k).2 = (c.findEntry k).isSome)
      ∧ (c.findEntry k = none → c.delete k = (c, false))
      ∧ ∀ e, c.findEntry k = some e → ∀ t, e.insertedAt + c.ttlMs ≤ t →
          c.has k t = false ∧ (c.delete k).2 = true := by
  refine ⟨?_, ?_, ?_⟩
  · cases hs : (c.findEntry k).isSome
    · simp [FIFOCache.delete, hs]
    · simp [FIFOCache.delete, hs]
  · intro h
    simp [FIFOCache.delete, h]
  · intro e he t ht
    constructor
    · rw [FIFOCache.has, FIFOCache.get_of_findEntry he]
      rw [if_neg (by omega)]
      rfl
    · simp [FIFOCache.delete, he]

/-- Witness instantiating C10: deleting an expired-but-present key
returns true, and deleting an absent key returns false and changes
nothing. -/
theorem C10_delete_semantics_witness :
    ((⟨10, 100, [⟨"k", JSValue.vNum 7, 0⟩]⟩ : FIFOCache JSValue).delete "k").2
        = true
      ∧ (⟨10, 100, [⟨"k", JSValue.vNum 7, 0⟩]⟩ : FIFOCache JSValue).has "k" 150
        = false
      ∧ (⟨10, 100, ([] : List (Entry JSValue))⟩ : FIFOCache JSValue).delete "x"
        = (⟨10, 100, []⟩, false) := by
  have h1 := C10_delete_semantics
    (⟨10, 100, [⟨"k", JSValue.vNum 7, 0⟩]⟩ : FIFOCache JSValue) "k"
  have h2 := C10_delete_semantics
    (⟨10, 100, ([] : List (Entry JSValue))⟩ : FIFOCache JSValue) "x"
  have h3 := h1.2.2 ⟨"k", JSValue.vNum 7, 0⟩ (by decide) 150 (by decide)
  exact ⟨h3.2, h3.1, h2.2.1 (by decide)⟩

end Claims

end AutoFetch
